import Mathlib

/-!
Verification of the chunk-processing pipeline and the record-parsing /
greedy-matching scorer of this repository.

The Python sources are embedded shallowly:
* strings are `List Char` (`Str`), so every operation is executable and
  amenable to kernel evaluation;
* Python `dict`s are association lists with first-match update semantics;
* the completion service (an external network dependency) is an oracle
  function supplied as a parameter;
* CPython floats produced by the scorer's divisions are modelled as exact
  rationals (`ℚ`); the properties proved about them are exact in IEEE
  arithmetic as well (only `0`-vs-nonzero case splits and the values `0`
  and `1` are at stake).
-/

namespace Spec2Proof

/-- Characters of a Python `str`, in order. -/
abbrev Str := List Char

/-- Auxiliary: `dropWhile` never lengthens a list (used for termination). -/
theorem dropWhile_len_le {α : Type} (p : α → Bool) (l : List α) :
    (l.dropWhile p).length ≤ l.length := by
  induction l with
  | nil => simp [List.dropWhile]
  | cons c t ih =>
    by_cases h : p c
    · simp [List.dropWhile, h]
      omega
    · simp [List.dropWhile, h]

/-- Python whitespace as used by `str.strip` / `str.split()` / regex `\s`
for ASCII text: space, tab, newline, carriage return, vertical tab, form feed. -/
def isPySpace (c : Char) : Bool :=
  c = ' ' ∨ c = '\t' ∨ c = '\n' ∨ c = '\r' ∨ c = '\x0b' ∨ c = '\x0c'

/-- Python `str.strip()`: drop leading and trailing whitespace. -/
def pyStrip (l : Str) : Str :=
  ((l.dropWhile isPySpace).reverse.dropWhile isPySpace).reverse

/-- Python `str.lower()` (ASCII fragment, which is all the pipeline feeds it). -/
def pyLower (l : Str) : Str := l.map Char.toLower

/-- Python `str.split()` with no separator: split on runs of whitespace,
dropping empty pieces. Structurally recursive on a fuel argument so that the
kernel can evaluate it; each step consumes at least one character, so fuel
equal to the input length (as supplied by `pySplitWs`) is never exhausted. -/
def pySplitWsFuel : ℕ → Str → List Str
  | _, [] => []
  | 0, l => [l]
  | fuel + 1, c :: rest =>
    if isPySpace c then pySplitWsFuel fuel rest
    else (c :: rest.takeWhile (fun x => ! isPySpace x)) ::
      pySplitWsFuel fuel (rest.dropWhile (fun x => ! isPySpace x))

/-- Python `str.split()` with no separator. -/
def pySplitWs (l : Str) : List Str := pySplitWsFuel l.length l

/-- `" ".join(ws)`. -/
def joinSpace (ws : List Str) : Str := List.intercalate [' '] ws

/-- `normalize_text` from `erevaluation/evaluation2.py`:
`" ".join(s.strip().lower().split())`. -/
def normalize_text (s : Str) : Str := joinSpace (pySplitWs (pyLower (pyStrip s)))

/-- Python `sep in s`: substring containment. -/
def strContains (s pat : Str) : Bool := s.tails.any (fun t => pat.isPrefixOf t)

/-- Python `s.split(sep)` for a non-empty separator `d :: ds`: cut at every
(leftmost, non-overlapping) occurrence of the separator. Structurally
recursive on a fuel argument so that the kernel can evaluate it; each step
consumes at least one character, so fuel equal to the input length (as
supplied by `splitOnCL`) is never exhausted. -/
def splitOnFuel (d : Char) (ds : Str) : ℕ → Str → List Str
  | _, [] => [[]]
  | 0, l => [l]
  | fuel + 1, c :: rest =>
    if (d :: ds).isPrefixOf (c :: rest) then
      [] :: splitOnFuel d ds fuel (rest.drop ds.length)
    else
      match splitOnFuel d ds fuel rest with
      | [] => [[c]]
      | h :: t => (c :: h) :: t

/-- Python `s.split(sep)` for a non-empty separator `d :: ds`. -/
def splitOnCL (d : Char) (ds : Str) (l : Str) : List Str :=
  splitOnFuel d ds l.length l

/-- The `{tuple_delimiter}` token of `evaluation2.py`. -/
def TUPLE_DELIM : Str := "{tuple_delimiter}".toList

/-- The `{record_delimiter}` token of `evaluation2.py`. -/
def RECORD_DELIM : Str := "{record_delimiter}".toList

/-- The `{completion_delimiter}` token of `evaluation2.py`. -/
def COMPLETION_DELIM : Str := "{completion_delimiter}".toList

/-- `compute_prf1` from `evaluation2.py`, with the float divisions taken
exactly (rationals). All divisions are guarded by `> 0` tests that fall back
to `0.0`, so the function is total. (`recall` is a Lean keyword, hence the
`_q` suffixes on the local names.) -/
def compute_prf1 (tp fp fn : ℕ) : ℚ × ℚ × ℚ :=
  let precision_q : ℚ := if tp + fp > 0 then (tp : ℚ) / ((tp : ℚ) + (fp : ℚ)) else 0
  let recall_q : ℚ := if tp + fn > 0 then (tp : ℚ) / ((tp : ℚ) + (fn : ℚ)) else 0
  let f1_q : ℚ :=
    if precision_q + recall_q > 0 then 2 * precision_q * recall_q / (precision_q + recall_q)
    else 0
  (precision_q, recall_q, f1_q)

theorem compute_prf1_fst (tp fp fn : ℕ) :
    (compute_prf1 tp fp fn).1 =
      if tp + fp > 0 then (tp : ℚ) / ((tp : ℚ) + (fp : ℚ)) else 0 := rfl

theorem compute_prf1_snd (tp fp fn : ℕ) :
    (compute_prf1 tp fp fn).2.1 =
      if tp + fn > 0 then (tp : ℚ) / ((tp : ℚ) + (fn : ℚ)) else 0 := rfl

theorem compute_prf1_thd (tp fp fn : ℕ) :
    (compute_prf1 tp fp fn).2.2 =
      if (compute_prf1 tp fp fn).1 + (compute_prf1 tp fp fn).2.1 > 0 then
        2 * (compute_prf1 tp fp fn).1 * (compute_prf1 tp fp fn).2.1 /
          ((compute_prf1 tp fp fn).1 + (compute_prf1 tp fp fn).2.1)
      else 0 := rfl

/-- Claim C8: `compute_prf1` is total on all non-negative integer inputs and
implements the guarded divisions: precision is `tp/(tp+fp)` when `tp+fp > 0`
and `0` otherwise; recall is `tp/(tp+fn)` when `tp+fn > 0` and `0` otherwise;
`f1` is `2PR/(P+R)` when `P+R > 0` and `0` otherwise; moreover
`compute_prf1 0 0 0 = (0,0,0)` and `compute_prf1 tp 0 0 = (1,1,1)` for
every `tp > 0`. -/
theorem compute_prf1_total_and_special (tp fp fn : ℕ) :
    ((tp + fp > 0 → (compute_prf1 tp fp fn).1 = (tp : ℚ) / ((tp : ℚ) + (fp : ℚ))) ∧
     (tp + fp = 0 → (compute_prf1 tp fp fn).1 = 0)) ∧
    ((tp + fn > 0 → (compute_prf1 tp fp fn).2.1 = (tp : ℚ) / ((tp : ℚ) + (fn : ℚ))) ∧
     (tp + fn = 0 → (compute_prf1 tp fp fn).2.1 = 0)) ∧
    (((compute_prf1 tp fp fn).1 + (compute_prf1 tp fp fn).2.1 > 0 →
        (compute_prf1 tp fp fn).2.2 =
          2 * (compute_prf1 tp fp fn).1 * (compute_prf1 tp fp fn).2.1 /
            ((compute_prf1 tp fp fn).1 + (compute_prf1 tp fp fn).2.1)) ∧
     ((compute_prf1 tp fp fn).1 + (compute_prf1 tp fp fn).2.1 = 0 →
        (compute_prf1 tp fp fn).2.2 = 0)) ∧
    compute_prf1 0 0 0 = (0, 0, 0) ∧
    (0 < tp → compute_prf1 tp 0 0 = (1, 1, 1)) := by
  refine ⟨⟨?_, ?_⟩, ⟨?_, ?_⟩, ⟨?_, ?_⟩, ?_, ?_⟩
  · intro h; rw [compute_prf1_fst, if_pos h]
  · intro h; rw [compute_prf1_fst, if_neg (by omega)]
  · intro h; rw [compute_prf1_snd, if_pos h]
  · intro h; rw [compute_prf1_snd, if_neg (by omega)]
  · intro h; rw [compute_prf1_thd, if_pos h]
  · intro h; rw [compute_prf1_thd, if_neg (by rw [h]; exact lt_irrefl 0)]
  · have hP : (compute_prf1 0 0 0).1 = 0 := by rw [compute_prf1_fst]; norm_num
    have hR : (compute_prf1 0 0 0).2.1 = 0 := by rw [compute_prf1_snd]; norm_num
    have hF : (compute_prf1 0 0 0).2.2 = 0 := by
      rw [compute_prf1_thd, hP, hR]; norm_num
    exact Prod.ext hP (Prod.ext hR hF)
  · intro h
    have htp : (tp : ℚ) ≠ 0 := by exact_mod_cast Nat.pos_iff_ne_zero.mp h
    have hpos : tp + 0 > 0 := by omega
    have h1 : (compute_prf1 tp 0 0).1 = 1 := by
      rw [compute_prf1_fst, if_pos hpos]
      simp [div_self htp]
    have h2 : (compute_prf1 tp 0 0).2.1 = 1 := by
      rw [compute_prf1_snd, if_pos hpos]
      simp [div_self htp]
    have h3 : (compute_prf1 tp 0 0).2.2 = 1 := by
      rw [compute_prf1_thd, h1, h2]
      norm_num
    exact Prod.ext h1 (Prod.ext h2 h3)

/-- Concrete instantiation of `compute_prf1_total_and_special` at `tp = 3`,
`fp = fn = 0`, discharging the hypotheses `3 + 0 > 0` and `0 < 3` there. -/
theorem compute_prf1_total_and_special_witness :
    compute_prf1 3 0 0 = (1, 1, 1) ∧ (compute_prf1 3 0 0).1 = (3 : ℚ) / (3 + 0) := by
  have h := compute_prf1_total_and_special 3 0 0
  refine ⟨h.2.2.2.2 (by decide), ?_⟩
  have h1 := h.1.1 (by decide)
  simpa using h1

/-! ## Entity and relation scoring (`evaluation2.py`) -/

/-- A parsed entity `(name, type)`, already normalized by the parser. -/
abbrev Ent := Str × Str

/-- A parsed relation `(head, tail)`, already normalized by the parser. -/
abbrev Rel := Str × Str

/-- A `{"tp": _, "fp": _, "fn": _}` counter dictionary. -/
structure Counts where
  tp : ℕ
  fp : ℕ
  fn : ℕ
deriving DecidableEq

/-- A Python `dict` from entity type to counters, as an association list with
pairwise-distinct keys maintained by first-match update / append-if-missing. -/
abbrev TypeCounts := List (Str × Counts)

/-- `ALL_ENTITY_TYPES` from `evaluation2.py`. -/
def ALL_ENTITY_TYPES : List Str :=
  ["person", "means_of_transportation", "means_of_communication", "routes",
   "location", "smuggled_items", "organization"].map String.toList

/-- The initial `per_type_counts` dictionary: every known type at zero. -/
def initPerType : TypeCounts := ALL_ENTITY_TYPES.map (fun t => (t, ⟨0, 0, 0⟩))

/-- `per_type_counts[k]["tp"] += 1`, inserting a zero entry first when the key
is missing (the `if p_type not in per_type_counts` branch). -/
def bumpTp : TypeCounts → Str → TypeCounts
  | [], k => [(k, ⟨1, 0, 0⟩)]
  | (k', c) :: rest, k =>
    if k' = k then (k', ⟨c.tp + 1, c.fp, c.fn⟩) :: rest
    else (k', c) :: bumpTp rest k

/-- `per_type_counts[k]["fp"] += 1`, inserting a zero entry when missing. -/
def bumpFp : TypeCounts → Str → TypeCounts
  | [], k => [(k, ⟨0, 1, 0⟩)]
  | (k', c) :: rest, k =>
    if k' = k then (k', ⟨c.tp, c.fp + 1, c.fn⟩) :: rest
    else (k', c) :: bumpFp rest k

/-- `per_type_counts[k]["fn"] += 1`, inserting a zero entry when missing. -/
def bumpFn : TypeCounts → Str → TypeCounts
  | [], k => [(k, ⟨0, 0, 1⟩)]
  | (k', c) :: rest, k =>
    if k' = k then (k', ⟨c.tp, c.fp, c.fn + 1⟩) :: rest
    else (k', c) :: bumpFn rest k

/-- The inner search of `score_entities`: the index of the first gold item that
is not yet used and equals the prediction (`for i, g in enumerate(gold): ...`),
scanning gold and its used-mask in parallel. -/
def findMatch {α : Type} [DecidableEq α] (p : α) : List α → List Bool → Option ℕ
  | g :: gs, u :: us =>
    if ¬ u ∧ g = p then some 0
    else (findMatch p gs us).map (· + 1)
  | _, _ => none

/-- Mutable state of the prediction loop of `score_entities`. -/
structure EntState where
  used : List Bool
  tp : ℕ
  fp : ℕ
  per : TypeCounts

/-- One iteration of `score_entities`' STEP 1 over a prediction `p`. -/
def entStep (gold : List Ent) (s : EntState) (p : Ent) : EntState :=
  match findMatch p gold s.used with
  | some i =>
    { used := s.used.set i true, tp := s.tp + 1, fp := s.fp, per := bumpTp s.per p.2 }
  | none => { s with fp := s.fp + 1, per := bumpFp s.per p.2 }

/-- One iteration of `score_entities`' STEP 2 over `zip(gold_used, gold)`:
an unused gold entity counts FN under its own type. -/
def fnStep (s : ℕ × TypeCounts) (x : Bool × Ent) : ℕ × TypeCounts :=
  if x.1 then s else (s.1 + 1, bumpFn s.2 x.2.2)

/-- `score_entities` from `evaluation2.py`: greedy order-preserving matching
with overall and per-type counters. -/
def score_entities (gold pred : List Ent) : Counts × TypeCounts :=
  let s1 := pred.foldl (entStep gold) ⟨List.replicate gold.length false, 0, 0, initPerType⟩
  let r := (s1.used.zip gold).foldl fnStep (0, s1.per)
  (⟨s1.tp, s1.fp, r.1⟩, r.2)

/-- Python `list.index` (first occurrence; callers guard membership). -/
def pyIndexOf {α : Type} [DecidableEq α] (x : α) : List α → ℕ
  | [] => 0
  | y :: ys => if y = x then 0 else pyIndexOf x ys + 1

/-- Mutable state of the relation-scoring loop in `main` of `evaluation2.py`. -/
structure RelState where
  used : List Bool
  tp : ℕ
  fp : ℕ

/-- One iteration of the relation-scoring loop: `if pr in gold_rel:
m = gold_rel.index(pr); if not gold_rel_used[m]: tp else fp; else fp`. -/
def relStep (gold : List Rel) (s : RelState) (p : Rel) : RelState :=
  if p ∈ gold then
    if s.used.getD (pyIndexOf p gold) false then { s with fp := s.fp + 1 }
    else { used := s.used.set (pyIndexOf p gold) true, tp := s.tp + 1, fp := s.fp }
  else { s with fp := s.fp + 1 }

/-- The relation-scoring block of `main` (lines 257–271 of `evaluation2.py`),
including `fn_r = gold_rel_used.count(False)`. -/
def score_relations (gold pred : List Rel) : Counts :=
  let s := pred.foldl (relStep gold) ⟨List.replicate gold.length false, 0, 0⟩
  ⟨s.tp, s.fp, s.used.count false⟩

/-- One step of the greedy policy as the claim states it: match the first
not-yet-used gold item with an identical tuple (TP), else FP. -/
def greedyStep (gold : List Rel) (s : RelState) (p : Rel) : RelState :=
  match findMatch p gold s.used with
  | some i => { used := s.used.set i true, tp := s.tp + 1, fp := s.fp }
  | none => { s with fp := s.fp + 1 }

/-- The claim's reference policy for relation scoring: entity-style greedy
matching applied to `(head, tail)` tuples, every unused gold item an FN. -/
def greedy_tuple_score (gold pred : List Rel) : Counts :=
  let s := pred.foldl (greedyStep gold) ⟨List.replicate gold.length false, 0, 0⟩
  ⟨s.tp, s.fp, s.used.count false⟩

/-! ## Scoring lemmas -/

/-- Total of the `tp` field over all per-type buckets. -/
def sumTp (m : TypeCounts) : ℕ := (m.map (fun kv => kv.2.tp)).sum

/-- Total of the `fp` field over all per-type buckets. -/
def sumFp (m : TypeCounts) : ℕ := (m.map (fun kv => kv.2.fp)).sum

/-- Total of the `fn` field over all per-type buckets. -/
def sumFn (m : TypeCounts) : ℕ := (m.map (fun kv => kv.2.fn)).sum

theorem sums_bumpTp (m : TypeCounts) (k : Str) :
    sumTp (bumpTp m k) = sumTp m + 1 ∧ sumFp (bumpTp m k) = sumFp m ∧
    sumFn (bumpTp m k) = sumFn m := by
  induction m with
  | nil => simp [bumpTp, sumTp, sumFp, sumFn]
  | cons kv rest ih =>
    obtain ⟨k', c⟩ := kv
    by_cases h : k' = k
    · simp only [bumpTp, if_pos h, sumTp, sumFp, sumFn, List.map_cons, List.sum_cons]
      refine ⟨by omega, trivial, trivial⟩
    · simp only [bumpTp, if_neg h, sumTp, sumFp, sumFn, List.map_cons,
        List.sum_cons] at ih ⊢
      omega

theorem sums_bumpFp (m : TypeCounts) (k : Str) :
    sumTp (bumpFp m k) = sumTp m ∧ sumFp (bumpFp m k) = sumFp m + 1 ∧
    sumFn (bumpFp m k) = sumFn m := by
  induction m with
  | nil => simp [bumpFp, sumTp, sumFp, sumFn]
  | cons kv rest ih =>
    obtain ⟨k', c⟩ := kv
    by_cases h : k' = k
    · simp only [bumpFp, if_pos h, sumTp, sumFp, sumFn, List.map_cons, List.sum_cons]
      refine ⟨trivial, by omega, trivial⟩
    · simp only [bumpFp, if_neg h, sumTp, sumFp, sumFn, List.map_cons,
        List.sum_cons] at ih ⊢
      omega

theorem sums_bumpFn (m : TypeCounts) (k : Str) :
    sumTp (bumpFn m k) = sumTp m ∧ sumFp (bumpFn m k) = sumFp m ∧
    sumFn (bumpFn m k) = sumFn m + 1 := by
  induction m with
  | nil => simp [bumpFn, sumTp, sumFp, sumFn]
  | cons kv rest ih =>
    obtain ⟨k', c⟩ := kv
    by_cases h : k' = k
    · simp only [bumpFn, if_pos h, sumTp, sumFp, sumFn, List.map_cons, List.sum_cons]
      refine ⟨trivial, trivial, by omega⟩
    · simp only [bumpFn, if_neg h, sumTp, sumFp, sumFn, List.map_cons,
        List.sum_cons] at ih ⊢
      omega

theorem count_true_add_count_false (us : List Bool) :
    us.count true + us.count false = us.length := by
  induction us with
  | nil => simp
  | cons u rest ih => cases u <;> simp [List.count_cons] <;> omega

theorem findMatch_some {α : Type} [DecidableEq α] (p : α) (gs : List α) (us : List Bool)
    (i : ℕ) (h : findMatch p gs us = some i) :
    i < us.length ∧ us.getD i true = false := by
  induction gs generalizing us i with
  | nil => simp [findMatch] at h
  | cons g gs' ih =>
    match us with
    | [] => simp [findMatch] at h
    | u :: us' =>
      simp only [findMatch] at h
      by_cases hg : ¬ u ∧ g = p
      · rw [if_pos hg] at h
        obtain ⟨hu, _⟩ := hg
        cases h
        simpa using hu
      · rw [if_neg hg] at h
        match hfm : findMatch p gs' us' with
        | none => rw [hfm] at h; simp at h
        | some j =>
          rw [hfm] at h
          simp at h
          obtain ⟨hlt, hval⟩ := ih us' j hfm
          subst h
          constructor
          · simpa using hlt
          · simpa using hval

theorem count_set_true (us : List Bool) (i : ℕ) (h : us.getD i true = false) :
    (us.set i true).count true = us.count true + 1 := by
  induction us generalizing i with
  | nil => simp at h
  | cons u rest ih =>
    match i with
    | 0 =>
      simp only [List.getD_cons_zero] at h
      subst h
      simp [List.count_cons]
    | j + 1 =>
      simp only [List.getD_cons_succ] at h
      cases u <;> simp [List.count_cons, ih j h]

/-- The combined invariant of the prediction loop of `score_entities`:
the used-mask keeps its length; `tp + fp` grows by one per prediction;
`tp` tracks the number of `true` marks in the mask; the per-type `tp` and
`fp` totals track the overall `tp` and `fp`; the per-type `fn` total is
untouched. -/
theorem entFold_inv (gold : List Ent) (pred : List Ent) (s : EntState) :
    (pred.foldl (entStep gold) s).used.length = s.used.length ∧
    (pred.foldl (entStep gold) s).tp + (pred.foldl (entStep gold) s).fp =
      s.tp + s.fp + pred.length ∧
    (pred.foldl (entStep gold) s).tp + s.used.count true =
      s.tp + (pred.foldl (entStep gold) s).used.count true ∧
    sumTp (pred.foldl (entStep gold) s).per + s.tp =
      sumTp s.per + (pred.foldl (entStep gold) s).tp ∧
    sumFp (pred.foldl (entStep gold) s).per + s.fp =
      sumFp s.per + (pred.foldl (entStep gold) s).fp ∧
    sumFn (pred.foldl (entStep gold) s).per = sumFn s.per := by
  induction pred generalizing s with
  | nil => simp
  | cons p ps ih =>
    have hstep :
        (entStep gold s p).used.length = s.used.length ∧
        (entStep gold s p).tp + (entStep gold s p).fp = s.tp + s.fp + 1 ∧
        (entStep gold s p).tp + s.used.count true =
          s.tp + (entStep gold s p).used.count true ∧
        sumTp (entStep gold s p).per + s.tp = sumTp s.per + (entStep gold s p).tp ∧
        sumFp (entStep gold s p).per + s.fp = sumFp s.per + (entStep gold s p).fp ∧
        sumFn (entStep gold s p).per = sumFn s.per := by
      cases hfm : findMatch p gold s.used with
      | some i =>
        obtain ⟨hlt, hval⟩ := findMatch_some p gold s.used i hfm
        have h1 := sums_bumpTp s.per p.2
        have h2 := count_set_true s.used i hval
        simp only [entStep, hfm, List.length_set, true_and, and_true]
        omega
      | none =>
        have h1 := sums_bumpFp s.per p.2
        simp only [entStep, hfm, true_and, and_true]
        omega
    have hrest := ih (entStep gold s p)
    simp only [List.foldl_cons, List.length_cons] at hrest ⊢
    omega

/-- The combined invariant of the FN loop of `score_entities`: the overall `fn`
and the per-type `fn` total both grow by the number of unused gold entries;
the per-type `tp` and `fp` totals are untouched. -/
theorem fnFold_inv (gs : List Ent) (us : List Bool) (n : ℕ) (per : TypeCounts)
    (h : us.length = gs.length) :
    ((us.zip gs).foldl fnStep (n, per)).1 = n + us.count false ∧
    sumFn ((us.zip gs).foldl fnStep (n, per)).2 = sumFn per + us.count false ∧
    sumTp ((us.zip gs).foldl fnStep (n, per)).2 = sumTp per ∧
    sumFp ((us.zip gs).foldl fnStep (n, per)).2 = sumFp per := by
  induction us generalizing gs n per with
  | nil => simp
  | cons u us' ih =>
    match gs with
    | [] => simp at h
    | g :: gs' =>
      simp only [List.length_cons] at h
      have h' : us'.length = gs'.length := by omega
      cases u
      · have hb := sums_bumpFn per g.2
        have hrec := ih gs' (n + 1) (bumpFn per g.2) h'
        simp only [List.zip_cons_cons, List.foldl_cons, fnStep] at hrec ⊢
        simp only [List.count_cons]
        norm_num
        omega
      · have hrec := ih gs' n per h'
        simp only [List.zip_cons_cons, List.foldl_cons, fnStep] at hrec ⊢
        simp only [List.count_cons]
        norm_num
        omega

theorem count_true_replicate_false (n : ℕ) : (List.replicate n false).count true = 0 := by
  simp [List.count_replicate]

theorem sums_initPerType :
    sumTp initPerType = 0 ∧ sumFp initPerType = 0 ∧ sumFn initPerType = 0 := by
  refine ⟨rfl, rfl, rfl⟩

/-- `score_entities` unfolded to its two folds (definitional). -/
theorem score_entities_eq (gold pred : List Ent) :
    score_entities gold pred =
      (⟨(pred.foldl (entStep gold) ⟨List.replicate gold.length false, 0, 0, initPerType⟩).tp,
        (pred.foldl (entStep gold) ⟨List.replicate gold.length false, 0, 0, initPerType⟩).fp,
        (((pred.foldl (entStep gold)
              ⟨List.replicate gold.length false, 0, 0, initPerType⟩).used.zip gold).foldl
            fnStep
            (0, (pred.foldl (entStep gold)
                  ⟨List.replicate gold.length false, 0, 0, initPerType⟩).per)).1⟩,
       (((pred.foldl (entStep gold)
             ⟨List.replicate gold.length false, 0, 0, initPerType⟩).used.zip gold).foldl
           fnStep
           (0, (pred.foldl (entStep gold)
                 ⟨List.replicate gold.length false, 0, 0, initPerType⟩).per)).2) := rfl

/-- Claim C5: for every gold list and every predicted list, the overall counts
of `score_entities` satisfy `tp + fp = |pred|` and `tp + fn = |gold|`. -/
theorem score_entities_counts (gold pred : List Ent) :
    (score_entities gold pred).1.tp + (score_entities gold pred).1.fp = pred.length ∧
    (score_entities gold pred).1.tp + (score_entities gold pred).1.fn = gold.length := by
  obtain ⟨hlen, hsum, htrue, -, -, -⟩ :=
    entFold_inv gold pred ⟨List.replicate gold.length false, 0, 0, initPerType⟩
  simp only [List.length_replicate, count_true_replicate_false] at hlen hsum htrue
  obtain ⟨hfn, -, -, -⟩ := fnFold_inv gold
    (pred.foldl (entStep gold) ⟨List.replicate gold.length false, 0, 0, initPerType⟩).used 0
    (pred.foldl (entStep gold) ⟨List.replicate gold.length false, 0, 0, initPerType⟩).per hlen
  have hcnt := count_true_add_count_false
    (pred.foldl (entStep gold) ⟨List.replicate gold.length false, 0, 0, initPerType⟩).used
  simp only [score_entities_eq]
  constructor <;> omega

/-- Claim C10: in every result of `score_entities`, the per-type counts
partition the overall counts: the per-type `tp` values sum to the overall
`tp`, and likewise for `fp` and `fn`. -/
theorem score_entities_per_type_partition (gold pred : List Ent) :
    sumTp (score_entities gold pred).2 = (score_entities gold pred).1.tp ∧
    sumFp (score_entities gold pred).2 = (score_entities gold pred).1.fp ∧
    sumFn (score_entities gold pred).2 = (score_entities gold pred).1.fn := by
  obtain ⟨hlen, -, -, hsTp, hsFp, hsFn⟩ :=
    entFold_inv gold pred ⟨List.replicate gold.length false, 0, 0, initPerType⟩
  simp only [List.length_replicate] at hlen
  obtain ⟨hi1, hi2, hi3⟩ := sums_initPerType
  obtain ⟨hfn, hfn2, htp2, hfp2⟩ := fnFold_inv gold
    (pred.foldl (entStep gold) ⟨List.replicate gold.length false, 0, 0, initPerType⟩).used 0
    (pred.foldl (entStep gold) ⟨List.replicate gold.length false, 0, 0, initPerType⟩).per hlen
  dsimp only at hsTp hsFp hsFn
  simp only [score_entities_eq]
  refine ⟨?_, ?_, ?_⟩ <;> omega

/-! ## Claim C1: relation scoring vs. entity-style greedy matching -/

theorem findMatch_not_mem {α : Type} [DecidableEq α] (p : α) (gs : List α) (us : List Bool)
    (hp : p ∉ gs) : findMatch p gs us = none := by
  induction gs generalizing us with
  | nil => cases us <;> simp [findMatch]
  | cons g gs' ih =>
    cases us with
    | nil => simp [findMatch]
    | cons u us' =>
      have hgp : ¬ (¬ u ∧ g = p) := by
        rintro ⟨-, rfl⟩
        exact hp (List.mem_cons_self _ _)
      have hp' : p ∉ gs' := fun hm => hp (List.mem_cons_of_mem _ hm)
      simp only [findMatch, if_neg hgp, ih us' hp']
      rfl

theorem findMatch_nodup {α : Type} [DecidableEq α] (p : α) (gs : List α) (us : List Bool)
    (hn : gs.Nodup) (hl : us.length = gs.length) :
    findMatch p gs us =
      if p ∈ gs then
        (if us.getD (pyIndexOf p gs) false then none else some (pyIndexOf p gs))
      else none := by
  induction gs generalizing us with
  | nil =>
    have hus : us = [] := List.eq_nil_of_length_eq_zero (by simpa using hl)
    subst hus
    simp [findMatch]
  | cons g gs' ih =>
    cases us with
    | nil => simp at hl
    | cons u us' =>
      have hl' : us'.length = gs'.length := by simpa using hl
      have hn' : gs'.Nodup := hn.of_cons
      have hg : g ∉ gs' := (List.nodup_cons.mp hn).1
      by_cases hgp : g = p
      · subst hgp
        cases u
        · simp [findMatch, pyIndexOf]
        · simp [findMatch, pyIndexOf, findMatch_not_mem g gs' us' hg]
      · have hcond : ¬ (¬ u ∧ g = p) := fun hc => hgp hc.2
        have hmem : (p ∈ g :: gs') ↔ p ∈ gs' := by
          rw [List.mem_cons]
          constructor
          · rintro (h1 | h1)
            · exact absurd h1.symm hgp
            · exact h1
          · intro h1; exact Or.inr h1
        have hidx : pyIndexOf p (g :: gs') = pyIndexOf p gs' + 1 := by
          simp [pyIndexOf, hgp]
        rw [show findMatch p (g :: gs') (u :: us') = (findMatch p gs' us').map (· + 1) by
              rw [show findMatch p (g :: gs') (u :: us') =
                    if ¬ u ∧ g = p then some 0 else (findMatch p gs' us').map (· + 1) from rfl,
                if_neg hcond]]
        rw [ih us' hn' hl', hidx]
        by_cases hm : p ∈ gs'
        · rw [if_pos hm, if_pos (hmem.mpr hm)]
          simp only [List.getD_cons_succ]
          by_cases hu : us'.getD (pyIndexOf p gs') false = true
          · rw [if_pos hu, if_pos hu]; rfl
          · rw [if_neg hu, if_neg hu]; rfl
        · rw [if_neg hm, if_neg (fun hc => hm (hmem.mp hc))]
          rfl

theorem greedyStep_used_length (gold : List Rel) (s : RelState) (p : Rel) :
    (greedyStep gold s p).used.length = s.used.length := by
  cases hfm : findMatch p gold s.used <;> simp [greedyStep, hfm]

theorem relStep_eq_greedyStep (gold : List Rel) (s : RelState) (p : Rel)
    (hn : gold.Nodup) (hl : s.used.length = gold.length) :
    relStep gold s p = greedyStep gold s p := by
  have hfm := findMatch_nodup p gold s.used hn hl
  by_cases hm : p ∈ gold
  · by_cases hu : s.used.getD (pyIndexOf p gold) false = true
    · rw [if_pos hm, if_pos hu] at hfm
      have hu' : s.used[pyIndexOf p gold]?.getD false = true := by simpa using hu
      simp [relStep, greedyStep, hfm, hm, hu']
    · rw [if_pos hm, if_neg hu] at hfm
      have hu' : s.used[pyIndexOf p gold]?.getD false = false := by simpa using hu
      simp [relStep, greedyStep, hfm, hm, hu']
  · rw [if_neg hm] at hfm
    simp [relStep, greedyStep, hfm, hm]

theorem relFold_eq (gold : List Rel) (pred : List Rel) (s : RelState)
    (hn : gold.Nodup) (hl : s.used.length = gold.length) :
    pred.foldl (relStep gold) s = pred.foldl (greedyStep gold) s := by
  induction pred generalizing s with
  | nil => rfl
  | cons p ps ih =>
    simp only [List.foldl_cons]
    rw [relStep_eq_greedyStep gold s p hn hl]
    exact ih (greedyStep gold s p) (by rw [greedyStep_used_length]; exact hl)

/-- Claim C1 (amended): on every gold relation list *without duplicate
tuples*, the relation-scoring loop of `main` produces exactly the counts of
the entity-style greedy policy applied to `(head, tail)` tuples; with
duplicated gold tuples the two differ (see the counterexample), because the
loop always re-resolves a prediction to the *first* occurrence of the tuple
in the gold list via `gold_rel.index(pr)`, even when that occurrence is
already used. -/
theorem score_relations_eq_greedy (gold pred : List Rel) (hn : gold.Nodup) :
    score_relations gold pred = greedy_tuple_score gold pred := by
  have h := relFold_eq gold pred ⟨List.replicate gold.length false, 0, 0⟩ hn (by simp)
  simp only [score_relations, greedy_tuple_score, h]

/-- Concrete instantiation of `score_relations_eq_greedy` for a duplicate-free
gold list with a duplicated prediction, discharging the `Nodup` hypothesis. -/
theorem score_relations_eq_greedy_witness :
    ([(("x".toList, "y".toList) : Rel)]).Nodup ∧
    score_relations [("x".toList, "y".toList)]
        [("x".toList, "y".toList), ("x".toList, "y".toList)] =
      greedy_tuple_score [("x".toList, "y".toList)]
        [("x".toList, "y".toList), ("x".toList, "y".toList)] :=
  ⟨by decide, score_relations_eq_greedy _ _ (by decide)⟩

/-- Claim C1 counterexample: with the gold list containing the tuple
`("x","y")` twice and the same two predictions, the relation-scoring loop
yields `tp=1, fp=1, fn=1` while the entity-style greedy policy yields
`tp=2, fp=0, fn=0`; the claimed equivalence fails on duplicated gold
tuples. -/
theorem score_relations_ne_greedy_on_dup_gold :
    score_relations [("x".toList, "y".toList), ("x".toList, "y".toList)]
        [("x".toList, "y".toList), ("x".toList, "y".toList)] = ⟨1, 1, 1⟩ ∧
    greedy_tuple_score [("x".toList, "y".toList), ("x".toList, "y".toList)]
        [("x".toList, "y".toList), ("x".toList, "y".toList)] = ⟨2, 0, 0⟩ ∧
    score_relations [("x".toList, "y".toList), ("x".toList, "y".toList)]
        [("x".toList, "y".toList), ("x".toList, "y".toList)] ≠
      greedy_tuple_score [("x".toList, "y".toList), ("x".toList, "y".toList)]
        [("x".toList, "y".toList), ("x".toList, "y".toList)] := by
  refine ⟨by decide, by decide, by decide⟩

/-! ## The record parser (`parse_delimited_output`, `evaluation2.py`) -/

/-- The `{entities, relations}` result of the parser. -/
structure ExtractionResult where
  entities : List Ent
  relations : List Rel
deriving DecidableEq

/-- Python `s.split(sep)` for the non-empty literal separators used here
(Python raises on an empty separator; that case never arises). -/
def pySplitOn (sep : Str) (l : Str) : List Str :=
  match sep with
  | [] => [l]
  | d :: ds => splitOnCL d ds l

/-- The tail of the regex `"(entity|relationship)"\s*(.*)\)\s*$` applied to a
*stripped* record after the closing quote of the keyword: because the record
was stripped, `\s*$` matches only the empty string, so `\)` must match the
final character; `(.*)` (greedy, not matching newlines) then captures
everything between the greedy whitespace run `\s*` and that final `)`, and
matches only if that capture contains no newline. -/
def groupOf (u : Str) : Option Str :=
  match u.reverse with
  | ')' :: midRev =>
    let captured := midRev.reverse.dropWhile isPySpace
    if captured.contains '\n' then none else some captured
  | _ => none

/-- `re.match(r'^\(\s*"(entity|relationship)"\s*(.*)\)\s*$', rec)` on a
stripped record: returns the keyword (`true` = `entity`) and group 2. -/
def matchRecord (l : Str) : Option (Bool × Str) :=
  match l with
  | '(' :: t =>
    let t1 := t.dropWhile isPySpace
    if "\"entity\"".toList.isPrefixOf t1 then
      (groupOf (t1.drop "\"entity\"".toList.length)).map (fun g => (true, g))
    else if "\"relationship\"".toList.isPrefixOf t1 then
      (groupOf (t1.drop "\"relationship\"".toList.length)).map (fun g => (false, g))
    else none
  | _ => none

/-- `if rest.startswith(TUPLE_DELIM): rest = rest[len(TUPLE_DELIM):]` followed
by `fields = rest.split(TUPLE_DELIM)`. -/
def recFields (grp : Str) : List Str :=
  let rest := if TUPLE_DELIM.isPrefixOf grp then grp.drop TUPLE_DELIM.length else grp
  pySplitOn TUPLE_DELIM rest

/-- The entity branch of the record loop: at least two fields, normalized name
and type, type filtered against the lowered allow-list. -/
def procEntity (allowed_lower : List Str) (fields : List Str) : Option Ent :=
  match fields with
  | f0 :: f1 :: _ =>
    let name := normalize_text f0
    let etype := pyLower (normalize_text f1)
    if etype ∈ allowed_lower then some (name, etype) else none
  | _ => none

/-- The `for rec in parts` loop of `parse_delimited_output`: strips each
record, **breaks** on an empty record or one containing the completion
delimiter, skips records that fail the shape match, and accumulates entity
and relationship tuples in order. -/
def parseRecords (allowed_lower : List Str) : List Str → ExtractionResult
  | [] => ⟨[], []⟩
  | rec :: rest =>
    let r := pyStrip rec
    if r.isEmpty || strContains r COMPLETION_DELIM then ⟨[], []⟩
    else
      match matchRecord r with
      | none => parseRecords allowed_lower rest
      | some (isEnt, grp) =>
        let fields := recFields grp
        let tail := parseRecords allowed_lower rest
        if isEnt then
          match procEntity allowed_lower fields with
          | some e => ⟨e :: tail.entities, tail.relations⟩
          | none => tail
        else
          match fields with
          | f0 :: f1 :: _ =>
            ⟨tail.entities, (normalize_text f0, normalize_text f1) :: tail.relations⟩
          | _ => tail

/-- `parse_delimited_output` from `evaluation2.py` (string input; the
non-string input branch of the Python code is unreachable in this typed
embedding). -/
def parse_delimited_output (raw : Str) (allowed_types : List Str) : ExtractionResult :=
  let parts := pySplitOn RECORD_DELIM raw
  let allowed_lower := allowed_types.map (fun t => pyStrip (pyLower t))
  parseRecords allowed_lower parts

/-- The record loop as claim C2 words it: process *every* record, skipping any
that fails the shape match (including empty ones), never truncating. -/
def processAllRecords (allowed_lower : List Str) : List Str → ExtractionResult
  | [] => ⟨[], []⟩
  | rec :: rest =>
    let r := pyStrip rec
    match matchRecord r with
    | none => processAllRecords allowed_lower rest
    | some (isEnt, grp) =>
      let fields := recFields grp
      let tail := processAllRecords allowed_lower rest
      if isEnt then
        match procEntity allowed_lower fields with
        | some e => ⟨e :: tail.entities, tail.relations⟩
        | none => tail
      else
        match fields with
        | f0 :: f1 :: _ =>
          ⟨tail.entities, (normalize_text f0, normalize_text f1) :: tail.relations⟩
        | _ => tail

/-- The parser as claim C2 states it: truncate only at the first record
containing the completion-delimiter token; silently skip every other
non-matching record, including empty ones. -/
def parse_claimed (raw : Str) (allowed_types : List Str) : ExtractionResult :=
  let parts := pySplitOn RECORD_DELIM raw
  let allowed_lower := allowed_types.map (fun t => pyStrip (pyLower t))
  processAllRecords allowed_lower
    (parts.takeWhile (fun rec => ! strContains (pyStrip rec) COMPLETION_DELIM))

theorem parseRecords_eq_processAll (al : List Str) (recs : List Str) :
    parseRecords al recs =
      processAllRecords al (recs.takeWhile
        (fun rec => ! ((pyStrip rec).isEmpty || strContains (pyStrip rec) COMPLETION_DELIM))) := by
  induction recs with
  | nil => rfl
  | cons rec rest ih =>
    cases hbad : (pyStrip rec).isEmpty || strContains (pyStrip rec) COMPLETION_DELIM with
    | true =>
      rw [List.takeWhile_cons, if_neg (by simp [hbad])]
      simp only [parseRecords]
      exact if_pos hbad
    | false =>
      simp only [parseRecords, List.takeWhile_cons, hbad, Bool.not_false, if_true,
        Bool.false_eq_true, if_false, reduceIte, ih]
      rfl

/-- Claim C2 (amended): the parser truncates at the first record that is
*empty after stripping or* contains the completion-delimiter token — an empty
record produced by consecutive record delimiters ends processing, it is not
skipped — and every other record that fails the shape match is silently
skipped, so well-formed records occurring after a nonempty, non-terminal,
non-matching record still appear in the returned lists. -/
theorem parse_delimited_output_truncation (raw : Str) (allowed_types : List Str) :
    parse_delimited_output raw allowed_types =
      processAllRecords (allowed_types.map (fun t => pyStrip (pyLower t)))
        ((pySplitOn RECORD_DELIM raw).takeWhile
          (fun rec => ! ((pyStrip rec).isEmpty || strContains (pyStrip rec) COMPLETION_DELIM))) :=
  parseRecords_eq_processAll _ _

/-- A raw text whose first record is empty (two consecutive record
delimiters would produce the same shape) followed by a well-formed entity
record. -/
def c2raw : Str :=
  "{record_delimiter}(\"entity\"{tuple_delimiter}alice{tuple_delimiter}person)".toList

/-- The allow-list used in the C2 counterexample. -/
def c2allowed : List Str := ["person".toList]

/-- Claim C2 counterexample: on `c2raw` the code's parser stops at the empty
first record and returns no entities, while the claimed behaviour (truncate
only at a completion-delimiter record, skip empty records) would return the
entity `("alice","person")`; the two disagree, refuting the claim that an
empty record is silently skipped. -/
theorem parse_not_skipping_empty_records :
    parse_delimited_output c2raw c2allowed = ⟨[], []⟩ ∧
    parse_claimed c2raw c2allowed = ⟨[("alice".toList, "person".toList)], []⟩ ∧
    parse_delimited_output c2raw c2allowed ≠ parse_claimed c2raw c2allowed := by
  refine ⟨by decide, by decide, by decide⟩

/-! ## JSON handling of the extractor (`ner.py`) -/

/-- The left-brace character. -/
def lbrace : Char := Char.ofNat 123

/-- The right-brace character. -/
def rbrace : Char := Char.ofNat 125

/-- The apostrophe character. -/
def apos : Char := Char.ofNat 39

/-- JSON values as produced by `json.loads`. Objects are kept as the parsed
key/value list; the payloads considered here never repeat keys, so the
CPython collapse-duplicates behaviour is not at stake. -/
inductive JVal where
  | null
  | bool (b : Bool)
  | num (n : Int)
  | str (s : Str)
  | arr (xs : List JVal)
  | obj (kvs : List (Str × JVal))

/-- JSON inter-token whitespace accepted by `json.loads`. -/
def isJSpace (c : Char) : Bool := c = ' ' ∨ c = '\t' ∨ c = '\n' ∨ c = '\r'

/-- Skip JSON inter-token whitespace. -/
def jskip (l : Str) : Str := l.dropWhile isJSpace

/-- Strict JSON string body (after the opening quote): runs to the closing
double quote, decoding the single-character backslash escapes; raw control
characters are rejected (the `json.loads` strict default). `\uXXXX` escapes
and non-ASCII concerns are outside the modelled fragment — the payloads this
repository handles never produce them. Fuel-indexed so the kernel can
evaluate; each step consumes at least one character. -/
def parseJStr : ℕ → Str → Option (Str × Str)
  | 0, _ => none
  | fuel + 1, l =>
    match l with
    | [] => none
    | '"' :: rest => some ([], rest)
    | '\\' :: esc :: rest =>
      let decoded : Option Char :=
        if esc = '"' then some '"'
        else if esc = '\\' then some '\\'
        else if esc = '/' then some '/'
        else if esc = 'n' then some '\n'
        else if esc = 't' then some '\t'
        else if esc = 'r' then some '\r'
        else if esc = 'b' then some (Char.ofNat 8)
        else if esc = 'f' then some (Char.ofNat 12)
        else none
      match decoded with
      | some c => (parseJStr fuel rest).map (fun p => (c :: p.1, p.2))
      | none => none
    | ['\\'] => none
    | c :: rest =>
      if c.toNat < 32 then none
      else (parseJStr fuel rest).map (fun p => (c :: p.1, p.2))

/-- Decimal digits to a natural number. -/
def digitsToNat (l : Str) : ℕ := l.foldl (fun n c => 10 * n + (c.toNat - 48)) 0

/-- JSON integer literal. Floats and exponents are outside the modelled
fragment (the payloads at stake carry integers and strings only), so a
fractional part makes the model parser fail. -/
def parseJNum (l : Str) : Option (Int × Str) :=
  let neg := match l with
    | '-' :: _ => true
    | _ => false
  let l1 := if neg then l.drop 1 else l
  let digs := l1.takeWhile (fun c => c.isDigit)
  let rest := l1.dropWhile (fun c => c.isDigit)
  if digs.isEmpty then none
  else match rest with
    | '.' :: _ => none
    | 'e' :: _ => none
    | 'E' :: _ => none
    | _ => some ((if neg then -(digitsToNat digs : Int) else (digitsToNat digs : Int)), rest)

mutual

/-- Object body after the `{`, consuming through the matching `}`. -/
def parseJObjBody : ℕ → Str → Option (List (Str × JVal) × Str)
  | 0, _ => none
  | fuel + 1, l =>
    match jskip l with
    | c :: rest =>
      if c = rbrace then some ([], rest) else parseJMembers fuel (c :: rest)
    | [] => none

/-- One or more `"key": value` members separated by commas, consuming the
closing `}`; expects its input already whitespace-skipped. -/
def parseJMembers : ℕ → Str → Option (List (Str × JVal) × Str)
  | 0, _ => none
  | fuel + 1, l =>
    match l with
    | '"' :: r =>
      match parseJStr (r.length + 1) r with
      | some (k, r2) =>
        match jskip r2 with
        | ':' :: r3 =>
          match parseJVal fuel r3 with
          | some (v, r4) =>
            match jskip r4 with
            | ',' :: r5 =>
              match parseJMembers fuel (jskip r5) with
              | some (kvs, r6) => some ((k, v) :: kvs, r6)
              | none => none
            | c :: r5 =>
              if c = rbrace then some ([(k, v)], r5) else none
            | _ => none
          | none => none
        | _ => none
      | none => none
    | _ => none

/-- Array body after the `[`, consuming through the matching `]`. -/
def parseJArrBody : ℕ → Str → Option (List JVal × Str)
  | 0, _ => none
  | fuel + 1, l =>
    match jskip l with
    | ']' :: rest => some ([], rest)
    | l1 => parseJElems fuel l1

/-- One or more array elements separated by commas, consuming the `]`. -/
def parseJElems : ℕ → Str → Option (List JVal × Str)
  | 0, _ => none
  | fuel + 1, l =>
    match parseJVal fuel l with
    | some (v, r) =>
      match jskip r with
      | ',' :: r2 =>
        match parseJElems fuel r2 with
        | some (vs, r3) => some (v :: vs, r3)
        | none => none
      | ']' :: r2 => some ([v], r2)
      | _ => none
    | none => none

/-- A JSON value with surrounding whitespace skipped on the left. -/
def parseJVal : ℕ → Str → Option (JVal × Str)
  | 0, _ => none
  | fuel + 1, input =>
    match jskip input with
    | [] => none
    | c :: r =>
      if c = '"' then (parseJStr (r.length + 1) r).map (fun p => (JVal.str p.1, p.2))
      else if c = lbrace then (parseJObjBody fuel r).map (fun p => (JVal.obj p.1, p.2))
      else if c = '[' then (parseJArrBody fuel r).map (fun p => (JVal.arr p.1, p.2))
      else if "true".toList.isPrefixOf (c :: r) then some (JVal.bool true, (c :: r).drop 4)
      else if "false".toList.isPrefixOf (c :: r) then some (JVal.bool false, (c :: r).drop 5)
      else if "null".toList.isPrefixOf (c :: r) then some (JVal.null, (c :: r).drop 4)
      else (parseJNum (c :: r)).map (fun p => (JVal.num p.1, p.2))

end

/-- `json.loads` on the modelled JSON fragment: parse one value, require only
whitespace after it. The fuel bound is generous for every payload considered
in the theorems below (it only has to exceed the fuel the recursion actually
consumes, which is linear in the input length). -/
def json_loads (raw : Str) : Option JVal :=
  match parseJVal (3 * raw.length + 3) raw with
  | some (v, rest) => if (jskip rest).isEmpty then some v else none
  | none => none

/-- One match attempt for the key of `re.sub(r'"([^"\n\r]+?)\'\s*:', r'"\1":', s)`
starting right after a `"`: the capture `[^"\n\r]+?` is non-greedy, so the
shortest nonempty run of characters other than `"`, newline and carriage
return that is followed by an apostrophe, optional whitespace and a colon.
Returns the captured run and the remainder after the colon. -/
def strayKey : ℕ → Str → Option (Str × Str)
  | 0, _ => none
  | fuel + 1, l =>
    match l with
    | [] => none
    | c :: t =>
      if c = '"' ∨ c = '\n' ∨ c = '\r' then none
      else
        let tryHere : Option (Str × Str) :=
          match t with
          | c2 :: u =>
            if c2 = apos then
              match u.dropWhile isPySpace with
              | ':' :: r => some ([c], r)
              | _ => none
            else none
          | [] => none
        match tryHere with
        | some p => some p
        | none => (strayKey fuel t).map (fun p => (c :: p.1, p.2))

/-- The whole `re.sub` of `extract_json_from_ollama`: scan left to right,
rewrite every (leftmost, non-overlapping) match `"key'<ws>:` to `"key":`,
and continue after the replaced text. -/
def re_sub_stray : ℕ → Str → Str
  | 0, l => l
  | fuel + 1, l =>
    match l with
    | [] => []
    | c :: t =>
      if c = '"' then
        match strayKey (t.length + 1) t with
        | some (k, r) => '"' :: (k ++ '"' :: ':' :: re_sub_stray fuel r)
        | none => c :: re_sub_stray fuel t
      else c :: re_sub_stray fuel t

/-- Python truthiness `not result` on a parsed JSON value. -/
def jvalIsFalsy : JVal → Bool
  | .null => true
  | .bool b => !b
  | .num n => n = 0
  | .str s => s.isEmpty
  | .arr xs => xs.isEmpty
  | .obj kvs => kvs.isEmpty

/-- Dictionary lookup on a parsed object (`k in d` / `d[k]`). -/
def jlook (kvs : List (Str × JVal)) (k : Str) : Option JVal :=
  match kvs with
  | [] => none
  | (k', v) :: rest => if k' = k then some v else jlook rest k

/-- Dictionary assignment `d[k] = v` for a key already present. -/
def jset (kvs : List (Str × JVal)) (k : Str) (v : JVal) : List (Str × JVal) :=
  match kvs with
  | [] => []
  | (k', v') :: rest => if k' = k then (k', v) :: rest else (k', v') :: jset rest k v

/-- `if key in result["ENTITIES"] and result["ENTITIES"][key] is None:
result["ENTITIES"][key] = []` for one key. Non-object `ENTITIES` values are
left untouched (the Python membership test on such values is not exercised
by any payload at stake). -/
def normEntField (ent : JVal) (key : Str) : JVal :=
  match ent with
  | .obj kvs =>
    match jlook kvs key with
    | some JVal.null => .obj (jset kvs key (.arr []))
    | _ => .obj kvs
  | v => v

/-- The response-shape normalization of `extract_json_from_ollama`: null
`ENTITIES.PROPER_NOUN` / `ENTITIES.NOUN_PHRASE` become empty lists, a null
`PROPER_NOUN_DESCRIPTION` becomes an empty map. The guarded start-with-brace
check makes the successfully parsed value an object here. -/
def normalizeResult (v : JVal) : JVal :=
  match v with
  | .obj kvs =>
    let kvs1 :=
      match jlook kvs ("ENTITIES".toList) with
      | some ent =>
        jset kvs ("ENTITIES".toList)
          (normEntField (normEntField ent ("PROPER_NOUN".toList)) ("NOUN_PHRASE".toList))
      | none => kvs
    match jlook kvs1 ("PROPER_NOUN_DESCRIPTION".toList) with
    | some JVal.null => .obj (jset kvs1 ("PROPER_NOUN_DESCRIPTION".toList) (.obj []))
    | _ => .obj kvs1
  | v => v

/-- `extract_json_from_ollama` from `ner.py` (the active, repairing version):
reject output not starting with an opening brace; parse; a parsed-but-falsy
value raises (uncaught by the `JSONDecodeError` handler); on a decode error,
apply the stray-apostrophe rewrite and re-parse, accepting a repair success
as if the original parse succeeded (note: the shape normalization and the
emptiness check are *not* applied on the repair path, as in the source). -/
def extract_json_from_ollama (raw : Str) : Except String JVal :=
  if (pyStrip raw).head? ≠ some lbrace then
    .error "Output does not start with the expected opening brace."
  else
    match json_loads raw with
    | some result =>
      if jvalIsFalsy result then .error "Parsed JSON is empty."
      else .ok (normalizeResult result)
    | none =>
      match json_loads (re_sub_stray raw.length raw) with
      | some result => .ok result
      | none => .error "Invalid JSON format."

/-- The C4 input: the nine characters of the text in which `a` is followed by
an apostrophe *inside* the double-quoted key, then the closing quote, a colon
and the value 1 — valid JSON. -/
def c4raw : Str := lbrace :: '"' :: 'a' :: apos :: '"' :: ':' :: ' ' :: '1' :: [rbrace]

/-- The variant the repair heuristic is written for: the key's closing double
quote is replaced by a stray apostrophe, which makes the text invalid JSON. -/
def c4rawStray : Str := lbrace :: '"' :: 'a' :: apos :: ':' :: ' ' :: '1' :: [rbrace]

/-- Claim C4 counterexample: the input in which the apostrophe sits inside the
quoted key is already valid JSON, so `json_loads` succeeds directly, the
repair path is never reached, and the result keeps the key `a'` — it is not
the object with key `a` that the claim asserts the repair produces. -/
theorem extract_json_direct_on_quoted_apostrophe :
    json_loads c4raw = some (JVal.obj [(['a', apos], JVal.num 1)]) ∧
    extract_json_from_ollama c4raw = .ok (JVal.obj [(['a', apos], JVal.num 1)]) ∧
    extract_json_from_ollama c4raw ≠ .ok (JVal.obj [(['a'], JVal.num 1)]) := by
  refine ⟨rfl, rfl, ?_⟩
  intro h
  rw [show extract_json_from_ollama c4raw = .ok (JVal.obj [(['a', apos], JVal.num 1)])
        from rfl] at h
  simp at h

/-- Claim C4 (amended): the stray-quote repair path fires on the input whose
key lacks its closing quote and carries a stray apostrophe instead: strict
parsing fails on it, the rewrite turns it into the valid text with key `a`,
and `extract_json_from_ollama` returns the object mapping `a` to 1 via the
repair path. -/
theorem extract_json_repair_on_stray_apostrophe :
    json_loads c4rawStray = none ∧
    re_sub_stray c4rawStray.length c4rawStray =
      lbrace :: '"' :: 'a' :: '"' :: ':' :: ' ' :: '1' :: [rbrace] ∧
    extract_json_from_ollama c4rawStray = .ok (JVal.obj [(['a'], JVal.num 1)]) := by
  refine ⟨rfl, rfl, rfl⟩

/-! ## Chunk-processing retry loops (`linkkgfull/loopcoref.py` and
`linkkg-no-str-prompt/resolve_coref.py`)

The completion service is an oracle mapping a sequential call index, the
timeout passed by the caller and (where the prompt matters) the prompt text
to either a response or a raised exception message. -/

/-- Timeout classification used by both loops:
`"timed out" in str(e).lower()`. -/
def timedOutMsg (e : Str) : Bool := strContains (pyLower e) ("timed out".toList)

/-- The per-chunk retry loop of `process_chunks` in `loopcoref.py`
(lines 143–191): `attempt` counts normal attempts and the loop runs while
`attempt < maxRetries`; `tod` is `timeout_retry_done`, reset per chunk; `ext`
counts the extended-timeout (300 s) service calls. A normal failure costs one
attempt, a failed extended retry one more. The oracle `svc` stands for
`run_ollama_inference` composed with `extract_json_from_ollama`: a successful
round-trip or a raised message. The fuel argument exists only so the kernel
can evaluate the loop; `corefChunkLoop` supplies `maxRetries + 1`, which can
never be exhausted because every iteration increases `attempt`. -/
def corefChunkGo (svc : ℕ → ℕ → Except Str Str) (maxRetries : ℕ) :
    ℕ → ℕ → ℕ → Bool → ℕ → (Except Str Str) × ℕ
  | 0, _, _, _, ext =>
    (.error ("Ollama inference failed after max retries".toList), ext)
  | fuel + 1, attempt, callIdx, tod, ext =>
    if attempt < maxRetries then
      match svc callIdx 120 with
      | .ok r => (.ok r, ext)
      | .error e =>
        if timedOutMsg e && ! tod then
          match svc (callIdx + 1) 300 with
          | .ok r => (.ok r, ext + 1)
          | .error _ =>
            corefChunkGo svc maxRetries fuel (attempt + 2) (callIdx + 2) true (ext + 1)
        else corefChunkGo svc maxRetries fuel (attempt + 1) (callIdx + 1) tod ext
    else (.error ("Ollama inference failed after max retries".toList), ext)

/-- The whole per-chunk retry loop of `process_chunks`, from its initial
state (`attempt = 0`, `timeout_retry_done = False`, first service call). -/
def corefChunkLoop (svc : ℕ → ℕ → Except Str Str) (maxRetries : ℕ) :
    (Except Str Str) × ℕ :=
  corefChunkGo svc maxRetries (maxRetries + 1) 0 0 false 0

/-- The per-chunk loop of `main` in `resolve_coref.py` (lines 147–178),
counting down the remaining passes (`rem = num_retries - retry`; the last
configured pass is `rem = 1`). On a successful call the returned text is
assigned to `input_text` and the loop **breaks**; on a timeout-classified
failure an extended-timeout (300 s) call is made unconditionally (there is no
once-per-chunk flag in this file); a failure on the last pass re-raises. When
the loop ends without a break (`rem = 0`, i.e. `num_retries = 0`), the chunk
text passes through unchanged. Returns the final text (or the fatal error)
and the extended-call count. -/
def resolveChunkLoop (svc : ℕ → ℕ → Str → Except Str Str) (mkPrompt : Str → Str) :
    ℕ → ℕ → Str → ℕ → (Except Str Str) × ℕ
  | 0, _, inputText, ext => (.ok inputText, ext)
  | rem + 1, callIdx, inputText, ext =>
    let prompt := mkPrompt inputText
    match svc callIdx 120 prompt with
    | .ok t => (.ok t, ext)
    | .error e =>
      if timedOutMsg e then
        match svc (callIdx + 1) 300 prompt with
        | .ok t => (.ok t, ext + 1)
        | .error _ =>
          if rem = 0 then (.error e, ext + 1)
          else resolveChunkLoop svc mkPrompt rem (callIdx + 2) inputText (ext + 1)
      else
        if rem = 0 then (.error e, ext)
        else resolveChunkLoop svc mkPrompt rem (callIdx + 1) inputText ext

theorem corefChunkGo_ext_bound (svc : ℕ → ℕ → Except Str Str) (maxRetries : ℕ)
    (fuel attempt callIdx : ℕ) (tod : Bool) (ext : ℕ) :
    (corefChunkGo svc maxRetries fuel attempt callIdx tod ext).2 ≤ ext + 1 ∧
    (tod = true → (corefChunkGo svc maxRetries fuel attempt callIdx tod ext).2 ≤ ext) := by
  induction fuel generalizing attempt callIdx tod ext with
  | zero => constructor <;> simp [corefChunkGo]
  | succ fuel ih =>
    simp only [corefChunkGo]
    by_cases ha : attempt < maxRetries
    · rw [if_pos ha]
      cases hc : svc callIdx 120 with
      | ok r => constructor <;> simp
      | error e =>
        cases hto : timedOutMsg e && ! tod with
        | false =>
          simp only [hto, Bool.false_eq_true, if_false, reduceIte]
          exact ih (attempt + 1) (callIdx + 1) tod ext
        | true =>
          simp only [hto, if_true, reduceIte]
          have htod : tod = false := by
            cases tod
            · rfl
            · simp at hto
          subst htod
          refine ⟨?_, by intro h; cases h⟩
          cases hc2 : svc (callIdx + 1) 300 with
          | ok r => simp
          | error e2 =>
            dsimp only
            exact (ih (attempt + 2) (callIdx + 2) true (ext + 1)).2 rfl
    · rw [if_neg ha]
      constructor <;> simp

theorem resolveChunkLoop_ext_bound (svc : ℕ → ℕ → Str → Except Str Str)
    (mkPrompt : Str → Str) (rem callIdx : ℕ) (inputText : Str) (ext : ℕ) :
    (resolveChunkLoop svc mkPrompt rem callIdx inputText ext).2 ≤ ext + rem := by
  induction rem generalizing callIdx ext with
  | zero => simp [resolveChunkLoop]
  | succ rem ih =>
    simp only [resolveChunkLoop]
    cases hc : svc callIdx 120 (mkPrompt inputText) with
    | ok t => simp
    | error e =>
      cases hto : timedOutMsg e with
      | false =>
        simp only [hto, Bool.false_eq_true, if_false, reduceIte]
        by_cases hz : rem = 0
        · rw [if_pos hz]
          simp
        · rw [if_neg hz]
          have h := ih (callIdx + 1) ext
          omega
      | true =>
        simp only [hto, if_true, reduceIte]
        cases hc2 : svc (callIdx + 1) 300 (mkPrompt inputText) with
        | ok t => simp
        | error e2 =>
          dsimp only
          by_cases hz : rem = 0
          · rw [if_pos hz]
            simp
          · rw [if_neg hz]
            have h := ih (callIdx + 2) (ext + 1)
            omega

/-- Claim C7 (amended): in `loopcoref.py`'s `process_chunks` the
extended-timeout escalation fires at most once per chunk per pass (it is
guarded by the per-chunk `timeout_retry_done` flag); in `resolve_coref.py`'s
loop there is no such flag — every timeout-classified failure triggers an
escalation, so it can fire up to `num_retries` times per chunk (and does, see
the counterexample). -/
theorem escalation_policy (svc1 : ℕ → ℕ → Except Str Str)
    (svc2 : ℕ → ℕ → Str → Except Str Str) (mkPrompt : Str → Str)
    (maxRetries numRetries : ℕ) (chunkText : Str) :
    (corefChunkLoop svc1 maxRetries).2 ≤ 1 ∧
    (resolveChunkLoop svc2 mkPrompt numRetries 0 chunkText 0).2 ≤ numRetries := by
  constructor
  · have h := (corefChunkGo_ext_bound svc1 maxRetries (maxRetries + 1) 0 0 false 0).1
    simpa [corefChunkLoop] using h
  · have h := resolveChunkLoop_ext_bound svc2 mkPrompt numRetries 0 chunkText 0
    simpa using h

/-- Claim C7 counterexample: in `resolve_coref.py`'s loop with two configured
passes and a service that always times out, the extended-timeout escalation
fires twice for the single chunk — more than the "at most once per chunk per
pass" the claim asserts for both loops. -/
theorem resolve_escalates_per_timeout_failure :
    (resolveChunkLoop
        (fun _ _ _ => .error ("Ollama inference timed out.".toList))
        (fun s => s) 2 0 ("chunk".toList) 0).2 = 2 := by
  decide

/-- Claim C3, the code evaluated at the failing input: with two configured
passes (`num_retries = 2`) and a service that succeeds on every call
(responding `R(prompt)` as `'R' :: prompt`, with prompts built as
`'P' :: text`), the final resolved text of the chunk is the response to the
*single* first call on the original chunk text — `R(P(chunk))` — because the
loop breaks on the first success; it is not the chained
`R(P(R(P(chunk))))` the claim describes. The second conjunct separates the
two candidate outputs. -/
theorem resolve_breaks_on_first_success :
    (resolveChunkLoop (fun _ _ prompt => .ok ('R' :: prompt)) (fun s => 'P' :: s)
        2 0 ("chunk".toList) 0).1 = .ok ('R' :: 'P' :: "chunk".toList) ∧
    ('R' :: 'P' :: "chunk".toList : Str) ≠
      ('R' :: 'P' :: 'R' :: 'P' :: "chunk".toList : Str) := by
  refine ⟨rfl, by decide⟩

/-! ## Global memory merge (`loopcoref.py` lines 193–194) -/

/-- `d[k] = v` on a Python dict modelled as an association list whose keys are
unique by construction: overwrite the entry in place, append when absent. -/
def pyDictSet {V : Type} (m : List (Str × V)) (k : Str) (v : V) : List (Str × V) :=
  match m with
  | [] => [(k, v)]
  | (k', v') :: rest => if k' = k then (k', v) :: rest else (k', v') :: pyDictSet rest k v

/-- `dict.update(upd)` — the merge in `resolved_entities.update(...)` and
`aux_descriptions.update(...)`: apply the update's pairs left to right. -/
def pyUpdate {V : Type} (m upd : List (Str × V)) : List (Str × V) :=
  upd.foldl (fun acc kv => pyDictSet acc kv.1 kv.2) m

/-- Dictionary lookup (first match; keys are unique by construction). -/
def dlookup {V : Type} (m : List (Str × V)) (k : Str) : Option V :=
  match m with
  | [] => none
  | (k', v) :: rest => if k' = k then some v else dlookup rest k

theorem pyUpdate_cons {V : Type} (m : List (Str × V)) (kv : Str × V)
    (rest : List (Str × V)) :
    pyUpdate m (kv :: rest) = pyUpdate (pyDictSet m kv.1 kv.2) rest := rfl

theorem dlookup_pyDictSet_self {V : Type} (m : List (Str × V)) (k : Str) (v : V) :
    dlookup (pyDictSet m k v) k = some v := by
  induction m with
  | nil => simp [pyDictSet, dlookup]
  | cons kv rest ih =>
    obtain ⟨k', v'⟩ := kv
    by_cases h : k' = k
    · simp [pyDictSet, dlookup, h]
    · simp [pyDictSet, dlookup, h, ih]

theorem dlookup_pyDictSet_other {V : Type} (m : List (Str × V)) (k0 k : Str) (v : V)
    (h : k0 ≠ k) : dlookup (pyDictSet m k0 v) k = dlookup m k := by
  induction m with
  | nil => simp [pyDictSet, dlookup, h]
  | cons kv rest ih =>
    obtain ⟨k', v'⟩ := kv
    by_cases he : k' = k0
    · subst he
      simp [pyDictSet, dlookup, h]
    · simp [pyDictSet, dlookup, he, ih]

theorem dlookup_pyDictSet_isSome {V : Type} (m : List (Str × V)) (k0 k : Str) (v : V)
    (h : (dlookup m k).isSome) : (dlookup (pyDictSet m k0 v) k).isSome := by
  by_cases he : k0 = k
  · subst he
    simp [dlookup_pyDictSet_self]
  · rw [dlookup_pyDictSet_other m k0 k v he]
    exact h

theorem dlookup_pyUpdate_isSome {V : Type} (upd : List (Str × V)) (k : Str) :
    ∀ m : List (Str × V), (dlookup m k).isSome → (dlookup (pyUpdate m upd) k).isSome := by
  induction upd with
  | nil => intro m h; exact h
  | cons kv rest ih =>
    intro m h
    rw [pyUpdate_cons]
    exact ih _ (dlookup_pyDictSet_isSome m kv.1 k kv.2 h)

theorem dlookup_pyUpdate_not_mem {V : Type} (upd : List (Str × V)) (k : Str) :
    ∀ m : List (Str × V), k ∉ upd.map Prod.fst →
      dlookup (pyUpdate m upd) k = dlookup m k := by
  induction upd with
  | nil => intro m _; rfl
  | cons kv rest ih =>
    intro m hk
    simp only [List.map_cons, List.mem_cons] at hk
    push_neg at hk
    rw [pyUpdate_cons, ih _ hk.2,
      dlookup_pyDictSet_other m kv.1 k kv.2 (fun he => hk.1 he.symm)]

theorem dlookup_pyUpdate_override {V : Type} (upd : List (Str × V)) (k : Str) (v : V) :
    ∀ m : List (Str × V), (upd.map Prod.fst).Nodup → dlookup upd k = some v →
      dlookup (pyUpdate m upd) k = some v := by
  induction upd with
  | nil => intro m _ h; simp [dlookup] at h
  | cons kv rest ih =>
    intro m hnd h
    obtain ⟨k0, v0⟩ := kv
    simp only [List.map_cons, List.nodup_cons] at hnd
    simp only [dlookup] at h
    by_cases he : k0 = k
    · rw [if_pos he] at h
      cases h
      subst he
      rw [pyUpdate_cons, dlookup_pyUpdate_not_mem rest k0 _ hnd.1]
      exact dlookup_pyDictSet_self m k0 _
    · rw [if_neg he] at h
      rw [pyUpdate_cons]
      exact ih _ hnd.2 h

theorem dlookup_foldl_pyUpdate_isSome {V : Type} (upds : List (List (Str × V)))
    (k : Str) : ∀ m : List (Str × V), (dlookup m k).isSome →
      (dlookup (upds.foldl pyUpdate m) k).isSome := by
  induction upds with
  | nil => intro m h; exact h
  | cons u us ih =>
    intro m h
    exact ih _ (dlookup_pyUpdate_isSome u k m h)

/-- Claim C6: the memory merge is union-with-override: after
`memory.update(response)` every key previously present is still present, every
key of the response is present with the response's value (the response wins
on conflict; its keys are unique, coming from a parsed JSON object), and the
key set grows monotonically across any sequence of merges. This holds for
both `resolvedEntities` and `auxDescriptions`, which use the same
`dict.update`. -/
theorem memory_merge_union_override {V : Type} (m upd : List (Str × V))
    (hnd : (upd.map Prod.fst).Nodup) :
    (∀ k, (dlookup m k).isSome → (dlookup (pyUpdate m upd) k).isSome) ∧
    (∀ k v, dlookup upd k = some v → dlookup (pyUpdate m upd) k = some v) ∧
    (∀ (upds : List (List (Str × V))) k, (dlookup m k).isSome →
      (dlookup (upds.foldl pyUpdate m) k).isSome) := by
  refine ⟨fun k h => dlookup_pyUpdate_isSome upd k m h,
    fun k v h => dlookup_pyUpdate_override upd k v m hnd h,
    fun upds k h => dlookup_foldl_pyUpdate_isSome upds k m h⟩

/-- Concrete instantiation of `memory_merge_union_override`: merging
`[k ↦ 2, m ↦ 3]` into `[k ↦ 0, j ↦ 1]` keeps `j`, adds `m`, and overrides `k`
with the response's value; the `Nodup` hypothesis is discharged on the
concrete update. -/
theorem memory_merge_union_override_witness :
    dlookup (pyUpdate [((['k'] : Str), 0), (['j'], 1)] [(['k'], 2), (['m'], 3)])
      ['k'] = some 2 ∧
    (dlookup (pyUpdate [((['k'] : Str), 0), (['j'], 1)] [(['k'], 2), (['m'], 3)])
      ['j']).isSome := by
  have h := memory_merge_union_override [((['k'] : Str), 0), (['j'], 1)]
    [(['k'], 2), (['m'], 3)] (by decide)
  exact ⟨h.2.1 ['k'] 2 (by decide), h.1 ['j'] (by decide)⟩

/-! ## The single-row batch extraction driver (`erevaluation.py`) -/

/-- Python `s.replace(pat, repl)` for a non-empty pattern: replace every
(leftmost, non-overlapping) occurrence. Fuel-indexed so the kernel can
evaluate; each step consumes at least one character of the subject. -/
def replaceAllFuel (p : Char) (ps repl : Str) : ℕ → Str → Str
  | 0, l => l
  | _ + 1, [] => []
  | fuel + 1, c :: t =>
    if (p :: ps).isPrefixOf (c :: t) then
      repl ++ replaceAllFuel p ps repl fuel (t.drop ps.length)
    else c :: replaceAllFuel p ps repl fuel t

/-- Python `s.replace(pat, repl)` (non-empty patterns only, which is all the
driver uses). -/
def pyReplace (l pat repl : Str) : Str :=
  match pat with
  | [] => l
  | p :: ps => replaceAllFuel p ps repl l.length l

/-- One CSV row of the batch extraction driver: the `Entity_Types` and
`Input_Text` columns. -/
structure CsvRow where
  entityTypes : Str
  inputText : Str

/-- The per-row prompt: the template with `{entity_types}` and `{input_text}`
placeholders substituted. -/
def rowPrompt (tmpl : Str) (row : CsvRow) : Str :=
  pyReplace (pyReplace tmpl ("{entity_types}".toList) row.entityTypes)
    ("{input_text}".toList) row.inputText

/-- The row loop of `main` in `erevaluation.py` (lines 75–101): for each row,
build the prompt and call the service (`svc`, indexed by row position); on
any exception record `"ERROR: " + str(e)` in place of the row's output;
always append exactly one output per row and continue. -/
def erevalDriver (svc : ℕ → Str → Except Str Str) (tmpl : Str) :
    ℕ → List CsvRow → List Str
  | _, [] => []
  | i, row :: rest =>
    (match svc i (rowPrompt tmpl row) with
     | .ok out => out
     | .error e => "ERROR: ".toList ++ e) :: erevalDriver svc tmpl (i + 1) rest

/-- Claim C9: the batch extraction driver never aborts on a failed call: it
produces exactly one output per input row, the output of a row whose call
fails is the error text prefixed with `"ERROR: "`, and the output of a row
whose call succeeds is the returned text — in both cases processing continues
with the subsequent rows. -/
theorem ereval_driver_total (svc : ℕ → Str → Except Str Str) (tmpl : Str)
    (rows : List CsvRow) (i0 : ℕ) :
    (erevalDriver svc tmpl i0 rows).length = rows.length ∧
    (∀ j, j < rows.length →
      (erevalDriver svc tmpl i0 rows).getD j [] =
        match svc (i0 + j) (rowPrompt tmpl (rows.getD j ⟨[], []⟩)) with
        | .ok out => out
        | .error e => "ERROR: ".toList ++ e) := by
  induction rows generalizing i0 with
  | nil =>
    refine ⟨rfl, ?_⟩
    intro j hj
    simp at hj
  | cons row rest ih =>
    refine ⟨by simp [erevalDriver, (ih (i0 + 1)).1], ?_⟩
    intro j hj
    match j with
    | 0 => simp [erevalDriver]
    | j' + 1 =>
      have h := (ih (i0 + 1)).2 j' (by simpa using hj)
      simp only [erevalDriver, List.getD_cons_succ]
      rw [h]
      have : i0 + 1 + j' = i0 + (j' + 1) := by omega
      rw [this]

/-- Concrete instantiation of `ereval_driver_total` on a single row whose call
fails: the driver records the error text and still yields one output. -/
theorem ereval_driver_total_witness :
    (erevalDriver (fun _ _ => .error ("boom".toList)) ("T".toList) 0
      [⟨"a".toList, "b".toList⟩]).getD 0 [] = "ERROR: boom".toList := by
  have h := (ereval_driver_total (fun _ _ => .error ("boom".toList)) ("T".toList)
      [⟨"a".toList, "b".toList⟩] 0).2 0 (by decide)
  simpa using h

end Spec2Proof
